import Mathlib

/-!
# raco: the generated four-way chain join of `c++/A.cpp`

A shallow embedding of `query ()` from `c++/A.cpp`:

* the four read loops (`scan S`, `scan R`, `scan U`, `scan T`), lines 5-84;
* the three index builds (`hash R`, `hash U`, `hash T`), lines 89-120;
* the nested join loops (`loop over S` ... `loop over final join results`),
  lines 125-167.

The file includes `A.h`, which is not part of the sources at hand.  Three things
the join loops use are declared neither in `A.cpp` nor in the standard library
and are therefore taken as parameters (structure `Header`):

* the variable `i` of the loop conditions at lines 126 and 148 (the `int i` of
  the index builds are scoped to their own `for` statements);
* `operator==` between a row (`vector<int>`) and an `int` (lines 127, 161);
* `operator==` between an `int` and a row (lines 149, 161).

Out-of-range subscripts are undefined behaviour in the source; the embedding is
total and records them as the outcome `outOfRange`.  The two loops whose
condition does not mention their own cursor are run with a step budget.
-/

namespace Raco

/-! ## Data model -/

/-- A row, `vector<int>`. -/
abbrev Tuple := List Int

/-- A relation, `vector<vector<int> >`. -/
abbrev Relation := List Tuple

/-- An index, `map<int, vector<vector<int> > >`, as an association list.  The
join only uses `find` and `operator[]`, never iteration, so the order of the
entries is immaterial; each key occurs at most once. -/
abbrev HashIndex := List (Int × Relation)

/-- A text source: the integers it holds, in order, and whether white space
(such as a final newline) follows the last integer. -/
structure Source where
  ints : List Int
  trailingSpace : Bool
deriving DecidableEq, Repr

/-- One emitted result: the rows bound at the four loop levels. -/
structure Combination where
  s : Tuple
  r : Tuple
  u : Tuple
  t : Tuple
deriving DecidableEq, Repr

/-- Declarations the join loops take from `A.h`. -/
structure Header where
  /-- value of the variable `i` read by the conditions at lines 126 and 148, as
  converted for the comparison with `size()` -/
  i : Nat
  /-- `operator==(vector<int>, int)`, lines 127 and 161 -/
  eqVecInt : Tuple → Int → Bool
  /-- `operator==(int, vector<int>)`, lines 149 and 161 -/
  eqIntVec : Int → Tuple → Bool

/-! ## Loading (lines 5-84) -/

/-- The read loop `while (!f.eof()) { int j; f >> j; ... }` started with the
integers `rest` still unread.

* When an integer is left, `f >> j` reads it; `eofbit` is set by that read
  exactly when the integer is the last thing in the source (no white space
  follows), and then the loop ends.
* When no integer is left (empty source, or white space after the last
  integer), `f >> j` reaches the end of the stream while skipping white space:
  the extraction fails, `eofbit` is set and `j` is not assigned.  `junk` is the
  value `j` then holds.  The body still pushes `j` and counts it. -/
def scanLoop (junk : Int) (trailingSpace : Bool) :
    List Int → Nat → Tuple → Relation → Relation
  | [], count, tmp, rel =>
    let tmp := tmp ++ [junk]
    let count := count + 1
    if count = 2 then rel ++ [tmp] else rel
  | j :: rest, count, tmp, rel =>
    let tmp := tmp ++ [j]
    let count := count + 1
    if count = 2 then
      if rest.isEmpty && !trailingSpace then rel ++ [tmp]
      else scanLoop junk trailingSpace rest 0 [] (rel ++ [tmp])
    else
      if rest.isEmpty && !trailingSpace then rel
      else scanLoop junk trailingSpace rest count tmp rel

/-- The block `scan S` (and its three copies): an empty relation, `count = 0`,
an empty `tmp_vector`, then the read loop. -/
def scan (junk : Int) (src : Source) : Relation :=
  scanLoop junk src.trailingSpace src.ints 0 [] []

/-! ## Index build (lines 89-120) -/

/-- The call `h.find(k)`: the bucket stored under `k`, or `none` for `end()`. -/
def HashIndex.find (h : HashIndex) (k : Int) : Option Relation :=
  h.lookup k

/-- The assignment `h[k] = b`. -/
def HashIndex.assign : HashIndex → Int → Relation → HashIndex
  | [], k, b => [(k, b)]
  | (k', b') :: h, k, b =>
    if k' = k then (k, b) :: h else (k', b') :: HashIndex.assign h k b

/-- The expression `h[k]` read as a value: the bucket under `k` and the index
afterwards; `operator[]` inserts an empty bucket when the key is absent. -/
def HashIndex.subscript (h : HashIndex) (k : Int) : Relation × HashIndex :=
  match h.find k with
  | some b => (b, h)
  | none => ([], h.assign k [])

/-- The statement `h[k].push_back(row)`. -/
def HashIndex.pushBack (h : HashIndex) (k : Int) (row : Tuple) : HashIndex :=
  let p := h.subscript k
  p.2.assign k (p.1 ++ [row])

/-- The loop of `hash R` over the rows not yet visited.  `none` is the
out-of-range subscript `R[i][1]` on a row with fewer than two columns. -/
def hashLoop : List Tuple → HashIndex → Option HashIndex
  | [], h => some h
  | row :: rest, h =>
    match row[1]? with
    | none => none
    | some k =>
      let h1 := if (h.find k).isNone then h.assign k [] else h
      hashLoop rest (h1.pushBack k row)

/-- The block `hash R` (and `hash U`, `hash T`): the index on column 1. -/
def hashBuild (rel : Relation) : Option HashIndex :=
  hashLoop rel []

/-! ## Join loops (lines 125-167) -/

/-- How a loop, or the whole run, ended. -/
inductive Outcome where
  /-- the loop condition became false -/
  | finished
  /-- a subscript was out of range (undefined behaviour in the source) -/
  | outOfRange
  /-- the step budget ran out with the loop condition still true -/
  | outOfFuel
deriving DecidableEq, Repr

/-- What the join loops can change or produce: the three indexes (`operator[]`
may insert), the results emitted so far, and the values `index0` had each time
the body of the loop over `S` was entered. -/
structure State where
  R1 : HashIndex
  U1 : HashIndex
  T1 : HashIndex
  emitted : List Combination
  visited : List Nat
deriving DecidableEq, Repr

/-- Replace the index `R1_hash`. -/
def State.setR1 (st : State) (h : HashIndex) : State :=
  ⟨h, st.U1, st.T1, st.emitted, st.visited⟩

/-- Replace the index `U1_hash`. -/
def State.setU1 (st : State) (h : HashIndex) : State :=
  ⟨st.R1, h, st.T1, st.emitted, st.visited⟩

/-- Replace the index `T1_hash`. -/
def State.setT1 (st : State) (h : HashIndex) : State :=
  ⟨st.R1, st.U1, h, st.emitted, st.visited⟩

/-- The comment `//emit result`, line 162: hand the current rows to the sink. -/
def State.emit (st : State) (c : Combination) : State :=
  ⟨st.R1, st.U1, st.T1, st.emitted ++ [c], st.visited⟩

/-- Record that the body of the loop over `S` is entered with cursor `index0`. -/
def State.visit (st : State) (index0 : Nat) : State :=
  ⟨st.R1, st.U1, st.T1, st.emitted, st.visited ++ [index0]⟩

/-- The condition of line 161,
`(100==table3[1] && table3[0]==50) && S[1]==table3[0]`, with the short-circuit
evaluation of `&&`; `none` is an out-of-range subscript.  The last conjunct
compares two rows and is the equality of `vector<int>`. -/
def finalPred (hdr : Header) (S table3 : Relation) : Option Bool :=
  match table3[1]? with
  | none => none
  | some a =>
    if hdr.eqIntVec 100 a then
      match table3[0]? with
      | none => none
      | some b =>
        if hdr.eqVecInt b 50 then
          match S[1]? with
          | none => none
          | some c => some (c == b)
        else some false
    else some false

/-- The loop over final join results, lines 160-164, over the rows of `table3`
not yet visited.  The cursor `index3` only selects the row that is emitted. -/
def loop3 (hdr : Header) (S : Relation) (s r u : Tuple) (table3 : Relation) :
    List Tuple → State → State × Outcome
  | [], st => (st, Outcome.finished)
  | t :: rest, st =>
    match finalPred hdr S table3 with
    | none => (st, Outcome.outOfRange)
    | some true => loop3 hdr S s r u table3 rest (st.emit ⟨s, r, u, t⟩)
    | some false => loop3 hdr S s r u table3 rest st

/-- The loop over `table2`, lines 148-165, with cursor `index2` and condition
`i < table2.size()`. -/
def loop2 (hdr : Header) (S : Relation) (s r : Tuple) (table2 : Relation) :
    Nat → Nat → State → State × Outcome
  | 0, _, st =>
    if hdr.i < table2.length then (st, Outcome.outOfFuel) else (st, Outcome.finished)
  | fuel + 1, index2, st =>
    if hdr.i < table2.length then
      match table2[0]? with
      | none => (st, Outcome.outOfRange)
      | some u0 =>
        if hdr.eqIntVec 100 u0 then
          match table2[index2]? with
          | none => (st, Outcome.outOfRange)
          | some u =>
            match u[0]? with
            | none => (st, Outcome.outOfRange)
            | some key =>
              match st.T1.find key with
              | none => loop2 hdr S s r table2 fuel (index2 + 1) st
              | some _ =>
                let p := st.T1.subscript key
                match loop3 hdr S s r u p.1 p.1 (st.setT1 p.2) with
                | (st3, Outcome.finished) => loop2 hdr S s r table2 fuel (index2 + 1) st3
                | (st3, o) => (st3, o)
        else loop2 hdr S s r table2 fuel (index2 + 1) st
    else (st, Outcome.finished)

/-- The loop over `table1`, lines 138-166, over the rows of `table1` not yet
visited (its condition is `index1 < table1.size()`). -/
def loop1 (hdr : Header) (S : Relation) (fuel : Nat) (s : Tuple) :
    List Tuple → State → State × Outcome
  | [], st => (st, Outcome.finished)
  | r :: rest, st =>
    match r[0]? with
    | none => (st, Outcome.outOfRange)
    | some key =>
      match st.U1.find key with
      | none => loop1 hdr S fuel s rest st
      | some _ =>
        let p := st.U1.subscript key
        match loop2 hdr S s r p.1 fuel 0 (st.setU1 p.2) with
        | (st2, Outcome.finished) => loop1 hdr S fuel s rest st2
        | (st2, o) => (st2, o)

/-- The loop over `S`, lines 126-167, with cursor `index0` and condition
`i < S.size()`. -/
def loop0 (hdr : Header) (S : Relation) :
    Nat → Nat → State → State × Outcome
  | 0, _, st =>
    if hdr.i < S.length then (st, Outcome.outOfFuel) else (st, Outcome.finished)
  | fuel + 1, index0, st =>
    if hdr.i < S.length then
      let st0 := st.visit index0
      match S[1]? with
      | none => (st0, Outcome.outOfRange)
      | some s1 =>
        if hdr.eqVecInt s1 50 then
          match S[index0]? with
          | none => (st0, Outcome.outOfRange)
          | some s =>
            match s[0]? with
            | none => (st0, Outcome.outOfRange)
            | some key =>
              match st0.R1.find key with
              | none => loop0 hdr S fuel (index0 + 1) st0
              | some _ =>
                let p := st0.R1.subscript key
                match loop1 hdr S fuel s p.1 (st0.setR1 p.2) with
                | (st1, Outcome.finished) => loop0 hdr S fuel (index0 + 1) st1
                | (st1, o) => (st1, o)
        else loop0 hdr S fuel (index0 + 1) st0
    else (st, Outcome.finished)

/-- The part of `query` after the scans: the three index builds and the join
loops.  `fuel` bounds the number of iterations of each loop whose condition
does not mention its own cursor. -/
def query (hdr : Header) (fuel : Nat) (S R U T : Relation) : State × Outcome :=
  match hashBuild R with
  | none => (⟨[], [], [], [], []⟩, Outcome.outOfRange)
  | some R1 =>
    match hashBuild U with
    | none => (⟨R1, [], [], [], []⟩, Outcome.outOfRange)
    | some U1 =>
      match hashBuild T with
      | none => (⟨R1, U1, [], [], []⟩, Outcome.outOfRange)
      | some T1 => loop0 hdr S fuel 0 ⟨R1, U1, T1, [], []⟩

/-- The whole of `query`: the four scans, then the builds and the loops.
`junk k` is the value left in `j` by a failed extraction in scan number `k`. -/
def program (hdr : Header) (junk : Fin 4 → Int) (fuel : Nat)
    (fS fR fU fT : Source) : State × Outcome :=
  query hdr fuel (scan (junk 0) fS) (scan (junk 1) fR) (scan (junk 2) fU)
    (scan (junk 3) fT)

/-! ## Reference join -/

/-- The brute-force four-level nested-loop join with the predicates of the
chain specification: `S.col1 = 50`, `S.col0 = R.col1`, `R.col0 = U.col1`,
`U.col1 = 100`, `U.col0 = T.col1`, `T.col1 = 100`, `T.col0 = 50` and
`S.col1 = T.col0`.  Rows that do not have two columns match nothing. -/
def nestedLoopJoin (S R U T : Relation) : List Combination :=
  S.flatMap fun s => R.flatMap fun r => U.flatMap fun u => T.flatMap fun t =>
    match s, r, u, t with
    | [s0, s1], [r0, r1], [u0, u1], [t0, t1] =>
      if s1 = 50 ∧ s0 = r1 ∧ r0 = u1 ∧ u1 = 100 ∧ u0 = t1 ∧ t1 = 100 ∧ t0 = 50 ∧ s1 = t0
      then [⟨s, r, u, t⟩] else []
    | _, _, _, _ => []

/-! ## Vocabulary of the statements -/

/-- The sub-sequence of `rel` whose rows have `key` in column 1, in the order
of `rel`. -/
def keyed (rel : Relation) (key : Int) : Relation :=
  rel.filter fun t => t[1]? == some key

/-- What `find` is expected to return on the index of `rel`: no bucket when no
row has `key` in column 1, the rows that have it otherwise. -/
def bucketOf (rel : Relation) (key : Int) : Option Relation :=
  if keyed rel key = [] then none else some (keyed rel key)

/-- The row made of the two components of a pair. -/
def pairRow (p : Int × Int) : Tuple := [p.1, p.2]

/-- The integers of a source that holds the given pairs one after the other. -/
def flatten (pairs : List (Int × Int)) : List Int := pairs.flatMap pairRow

/-- A position in each of `S`, `R`, `U`, `T`, in that order. -/
abbrev Quad := Nat × Nat × Nat × Nat

/-- The strict lexicographic order on position quadruples: the position in `S`
is the most significant, the position in `T` the least. -/
def lexLt (p q : Quad) : Prop :=
  p.1 < q.1 ∨ (p.1 = q.1 ∧ (p.2.1 < q.2.1 ∨ (p.2.1 = q.2.1 ∧
    (p.2.2.1 < q.2.2.1 ∨ (p.2.2.1 = q.2.2.1 ∧ p.2.2.2 < q.2.2.2)))))

instance lexLt.decidable : DecidableRel lexLt := fun p q => by
  unfold lexLt
  infer_instance

/-- The combination `c` is made of the rows found at the positions `q`. -/
def At (S R U T : Relation) (q : Quad) (c : Combination) : Prop :=
  S[q.1]? = some c.s ∧ R[q.2.1]? = some c.r ∧ U[q.2.2.1]? = some c.u ∧ T[q.2.2.2]? = some c.t

/-- The results `es` can be read as position quadruples that increase strictly
in the lexicographic order and lie between `lo` (included) and `hi`
(excluded). -/
def Blk (S R U T : Relation) (lo hi : Quad) (es : List Combination) : Prop :=
  ∃ qs : List Quad, List.Forall₂ (At S R U T) qs es ∧ qs.Pairwise lexLt ∧
    ∀ q ∈ qs, ¬ lexLt q lo ∧ lexLt q hi

/-- The rows `ps`, each with a position, occur in `rel` at those positions,
and the positions increase. -/
def Located (rel : Relation) (ps : List (Nat × Tuple)) : Prop :=
  ps.Pairwise (fun x y => x.1 < y.1) ∧ ∀ x ∈ ps, rel[x.1]? = some x.2

/-- From `st` to `st'` the indexes are unchanged and the results emitted in
between form a block between `lo` and `hi`. -/
def Step (S R U T : Relation) (lo hi : Quad) (st st' : State) : Prop :=
  st'.R1 = st.R1 ∧ st'.U1 = st.U1 ∧ st'.T1 = st.T1 ∧
    ∃ new, st'.emitted = st.emitted ++ new ∧ Blk S R U T lo hi new

/-- One possible content of `A.h`, used to run the loops on concrete inputs:
`i` is `0`, and a row and an integer compare equal when the integer is one of
the columns of the row. -/
def sampleHeader : Header :=
  ⟨0, fun row n => row.contains n, fun n row => row.contains n⟩

/-- The number of results according to the predicates of the chain: the pairs
of a row of `S` with 50 in column 1 and a row of `R` equal to
`(100, column 0 of the row of S)`, times the occurrences of `(100,100)` in `U`,
times the occurrences of `(50,100)` in `T`. -/
def pinnedCount (S R U T : Relation) : Nat :=
  (S.flatMap fun s => R.filter fun r =>
      s[1]? == some 50 && (s[0]?.map fun k => [100, k]) == some r).length *
    U.count [100, 100] * T.count [50, 100]

/-! ## Index build: lemmas -/

/-- After `h[k] = b`, `find` returns `b` at `k` and is unchanged elsewhere. -/
theorem find_assign (h : HashIndex) (k : Int) (b : Relation) (k' : Int) :
    (h.assign k b).find k' = if k' = k then some b else h.find k' := by
  induction h with
  | nil =>
    simp only [HashIndex.assign, HashIndex.find, List.lookup]
    by_cases hk : k' = k
    · simp [hk]
    · have : (k' == k) = false := by simpa using hk
      simp [hk, this]
  | cons p h ih =>
    obtain ⟨a, c⟩ := p
    simp only [HashIndex.assign]
    by_cases hak : a = k
    · subst hak
      simp only [if_true, HashIndex.find, List.lookup]
      by_cases hk : k' = a
      · simp [hk]
      · have : (k' == a) = false := by simpa using hk
        simp [hk, this]
    · simp only [hak, if_false, HashIndex.find, List.lookup]
      by_cases hk : k' = a
      · subst hk
        simp [hak]
      · have : (k' == a) = false := by simpa using hk
        simp only [this]
        exact ih

/-- One iteration of the build loop appends the row to the bucket of its key
and leaves the other buckets as they were. -/
theorem find_pushBack (h : HashIndex) (k : Int) (row : Tuple) (k' : Int) :
    ((if (h.find k).isNone then h.assign k [] else h).pushBack k row).find k' =
      if k' = k then some ((h.find k).getD [] ++ [row]) else h.find k' := by
  cases hf : h.find k with
  | none =>
    have h1 : (h.assign k []).find k = some [] := by simp [find_assign]
    simp only [Option.isNone_none, if_true, HashIndex.pushBack, HashIndex.subscript, h1,
      find_assign, Option.getD_none]
    by_cases hk : k' = k <;> simp [hk]
  | some b =>
    simp only [Option.isNone_some, Bool.false_eq_true, if_false, HashIndex.pushBack,
      HashIndex.subscript, hf, find_assign, Option.getD_some]

/-- The expected bucket, read with an empty default, is the filter. -/
theorem bucketOf_getD (rel : Relation) (key : Int) :
    (bucketOf rel key).getD [] = keyed rel key := by
  unfold bucketOf
  by_cases h : keyed rel key = [] <;> simp [h]

/-- The filter of a relation extended by one row. -/
theorem keyed_snoc (pre : Relation) (row : Tuple) (k key : Int) (hk : row[1]? = some k) :
    keyed (pre ++ [row]) key = if key = k then keyed pre key ++ [row] else keyed pre key := by
  unfold keyed
  rw [List.filter_append]
  by_cases h : key = k
  · subst h
    simp [hk]
  · have h' : ¬ k = key := fun e => h e.symm
    simp [hk, h, h']

/-- The build loop keeps the invariant that `find` agrees with `bucketOf` on
the rows visited so far. -/
theorem hashLoop_sound (rest : List Tuple) :
    ∀ (h : HashIndex) (pre : Relation) (h' : HashIndex), hashLoop rest h = some h' →
      (∀ key, h.find key = bucketOf pre key) →
      ∀ key, h'.find key = bucketOf (pre ++ rest) key := by
  induction rest with
  | nil =>
    intro h pre h' hrun hinv
    simp only [hashLoop, Option.some.injEq] at hrun
    subst hrun
    simpa using hinv
  | cons row rest ih =>
    intro h pre h' hrun hinv
    cases hk : row[1]? with
    | none => simp [hashLoop, hk] at hrun
    | some k =>
      simp only [hashLoop, hk] at hrun
      have hstep : ∀ key,
          ((if (h.find k).isNone then h.assign k [] else h).pushBack k row).find key
            = bucketOf (pre ++ [row]) key := by
        intro key
        rw [find_pushBack, hinv, hinv, bucketOf_getD]
        unfold bucketOf
        rw [keyed_snoc pre row k key hk]
        by_cases e : key = k
        · subst e; simp
        · simp [e]
      have := ih _ (pre ++ [row]) h' hrun hstep
      simpa using this

/-- On rows of two columns the build loop never leaves the range of a row. -/
theorem hashLoop_total (rest : List Tuple) :
    ∀ (h : HashIndex), (∀ t ∈ rest, t.length = 2) → ∃ h', hashLoop rest h = some h' := by
  induction rest with
  | nil => intro h _; exact ⟨h, rfl⟩
  | cons row rest ih =>
    intro h hw
    have hlen : row.length = 2 := hw row (List.mem_cons_self _ _)
    obtain ⟨k, hk⟩ : ∃ k, row[1]? = some k := by
      match row, hlen with
      | [a, b], _ => exact ⟨b, rfl⟩
    obtain ⟨h', hrun⟩ := ih ((if (h.find k).isNone then h.assign k [] else h).pushBack k row)
      (fun t ht => hw t (List.mem_cons_of_mem _ ht))
    exact ⟨h', by simp only [hashLoop, hk]; exact hrun⟩

/-- On a finished build, `find` is `bucketOf`. -/
theorem hashBuild_find {rel : Relation} {h : HashIndex} (hb : hashBuild rel = some h)
    (key : Int) : h.find key = bucketOf rel key := by
  have := hashLoop_sound rel [] [] h hb (fun key => by simp [HashIndex.find, bucketOf, keyed]) key
  simpa using this

/-- A subscript guarded by a successful `find` returns the bucket and leaves
the index as it was. -/
theorem subscript_of_find {h : HashIndex} {k : Int} {b : Relation} (hf : h.find k = some b) :
    h.subscript k = (b, h) := by
  simp [HashIndex.subscript, hf]

/-- A bucket that exists is the filter of the relation. -/
theorem bucketOf_eq_some {rel : Relation} {key : Int} {b : Relation}
    (h : bucketOf rel key = some b) : b = keyed rel key := by
  unfold bucketOf at h
  by_cases e : keyed rel key = []
  · simp [e] at h
  · simp only [e, if_false, Option.some.injEq] at h
    exact h.symm

/-! ## Loading: lemmas -/

/-- Two iterations of the read loop, started on a row boundary. -/
theorem scanLoop_two (junk : Int) (tr : Bool) (a b : Int) (rest : List Int) (rel : Relation) :
    scanLoop junk tr (a :: b :: rest) 0 [] rel =
      if rest.isEmpty && !tr then rel ++ [[a, b]]
      else scanLoop junk tr rest 0 [] (rel ++ [[a, b]]) := by
  simp [scanLoop]

/-- The read loop on a row boundary with nothing left to read. -/
theorem scanLoop_nil (junk : Int) (tr : Bool) (rel : Relation) :
    scanLoop junk tr [] 0 [] rel = rel := by
  simp [scanLoop]

/-- The read loop on a row boundary with one integer left. -/
theorem scanLoop_one (junk : Int) (tr : Bool) (x : Int) (rel : Relation) :
    scanLoop junk tr [x] 0 [] rel = if tr then rel ++ [[x, junk]] else rel := by
  cases tr <;> simp [scanLoop]

/-- The integers of a source that starts with the pair `p`. -/
theorem flatten_cons (p : Int × Int) (pairs : List (Int × Int)) :
    flatten (p :: pairs) = p.1 :: p.2 :: flatten pairs := by
  simp [flatten, pairRow]

/-- The read loop on the integers of whole pairs. -/
theorem scanLoop_even (junk : Int) (tr : Bool) (pairs : List (Int × Int)) :
    ∀ rel, scanLoop junk tr (flatten pairs) 0 [] rel = rel ++ pairs.map pairRow := by
  induction pairs with
  | nil => intro rel; simp [flatten, scanLoop_nil]
  | cons p pairs ih =>
    intro rel
    rw [flatten_cons, scanLoop_two]
    split
    · rename_i h
      have hnil : pairs = [] := by
        cases pairs with
        | nil => rfl
        | cons q qs => simp [flatten_cons] at h
      subst hnil
      simp [pairRow]
    · rw [ih]
      simp [pairRow]

/-- The read loop on the integers of whole pairs followed by one integer. -/
theorem scanLoop_odd (junk : Int) (tr : Bool) (pairs : List (Int × Int)) (x : Int) :
    ∀ rel, scanLoop junk tr (flatten pairs ++ [x]) 0 [] rel =
      if tr then rel ++ pairs.map pairRow ++ [[x, junk]] else rel ++ pairs.map pairRow := by
  induction pairs with
  | nil => intro rel; simp [flatten, scanLoop_one]
  | cons p pairs ih =>
    intro rel
    rw [flatten_cons, List.cons_append, List.cons_append, scanLoop_two]
    have hne : ((flatten pairs ++ [x]).isEmpty && !tr) = false := by
      cases hfl : flatten pairs <;> simp [List.isEmpty]
    rw [hne, if_neg (by simp), ih]
    cases tr <;> simp [pairRow]

/-! ## Nested order: lemmas

Each loop level is shown to extend the emitted results by a block of position
quadruples that lies between the cursor of the level and the next value of
the cursor of the level above. -/

/-- The order `lexLt` on explicit quadruples. -/
theorem lexLt_mk (a b c d a' b' c' d' : Nat) :
    lexLt (a, b, c, d) (a', b', c', d') ↔
      a < a' ∨ (a = a' ∧ (b < b' ∨ (b = b' ∧ (c < c' ∨ (c = c' ∧ d < d'))))) :=
  Iff.rfl

/-- The order `lexLt` is transitive. -/
theorem lexLt_trans {p q r : Quad} (h1 : lexLt p q) (h2 : lexLt q r) : lexLt p r := by
  obtain ⟨p1, p2, p3, p4⟩ := p
  obtain ⟨q1, q2, q3, q4⟩ := q
  obtain ⟨r1, r2, r3, r4⟩ := r
  simp only [lexLt] at *
  omega

/-- Below `q`, and `q` not above `r`: below `r`. -/
theorem lexLt_of_lt_of_not {p q r : Quad} (h1 : lexLt p q) (h2 : ¬ lexLt r q) : lexLt p r := by
  obtain ⟨p1, p2, p3, p4⟩ := p
  obtain ⟨q1, q2, q3, q4⟩ := q
  obtain ⟨r1, r2, r3, r4⟩ := r
  simp only [lexLt] at *
  omega

/-- Not being below is transitive. -/
theorem not_lexLt_trans {p q r : Quad} (h1 : ¬ lexLt q p) (h2 : ¬ lexLt r q) : ¬ lexLt r p := by
  obtain ⟨p1, p2, p3, p4⟩ := p
  obtain ⟨q1, q2, q3, q4⟩ := q
  obtain ⟨r1, r2, r3, r4⟩ := r
  simp only [lexLt] at *
  omega

/-- No results form a block between any bounds. -/
theorem blk_nil (S R U T : Relation) (lo hi : Quad) : Blk S R U T lo hi [] :=
  ⟨[], List.Forall₂.nil, List.Pairwise.nil, by simp⟩

/-- A block stays a block when its bounds are widened. -/
theorem blk_mono {S R U T : Relation} {lo hi lo' hi' : Quad} {es : List Combination}
    (h : Blk S R U T lo hi es) (hlo : ¬ lexLt lo lo') (hhi : ¬ lexLt hi' hi) :
    Blk S R U T lo' hi' es := by
  obtain ⟨qs, hf, hp, hb⟩ := h
  refine ⟨qs, hf, hp, fun q hq => ?_⟩
  obtain ⟨h1, h2⟩ := hb q hq
  exact ⟨not_lexLt_trans hlo h1, lexLt_of_lt_of_not h2 hhi⟩

/-- Two blocks with a common bound form a block when concatenated. -/
theorem blk_append {S R U T : Relation} {lo mid hi : Quad} {es es' : List Combination}
    (h : Blk S R U T lo mid es) (h' : Blk S R U T mid hi es')
    (hlo : ¬ lexLt mid lo) (hhi : ¬ lexLt hi mid) :
    Blk S R U T lo hi (es ++ es') := by
  obtain ⟨qs, hf, hp, hb⟩ := h
  obtain ⟨qs', hf', hp', hb'⟩ := h'
  refine ⟨qs ++ qs', List.rel_append hf hf', ?_, ?_⟩
  · rw [List.pairwise_append]
    refine ⟨hp, hp', fun x hx y hy => ?_⟩
    exact lexLt_of_lt_of_not (hb x hx).2 (hb' y hy).1
  · intro q hq
    rcases List.mem_append.1 hq with hq | hq
    · exact ⟨(hb q hq).1, lexLt_of_lt_of_not (hb q hq).2 hhi⟩
    · exact ⟨not_lexLt_trans hlo (hb' q hq).1, (hb' q hq).2⟩

/-- One result found at a quadruple within the bounds is a block. -/
theorem blk_single {S R U T : Relation} {lo hi q : Quad} {c : Combination}
    (hc : At S R U T q c) (hlo : ¬ lexLt q lo) (hhi : lexLt q hi) :
    Blk S R U T lo hi [c] :=
  ⟨[q], List.Forall₂.cons hc List.Forall₂.nil, List.pairwise_singleton _ _, by
    intro x hx
    rw [List.mem_singleton] at hx
    subst hx
    exact ⟨hlo, hhi⟩⟩

/-- Doing nothing is a step between any bounds. -/
theorem step_refl (S R U T : Relation) (lo hi : Quad) (st : State) : Step S R U T lo hi st st :=
  ⟨rfl, rfl, rfl, [], by simp, blk_nil S R U T lo hi⟩

/-- A step stays a step when its bounds are widened. -/
theorem step_mono {S R U T : Relation} {lo hi lo' hi' : Quad} {st st' : State}
    (h : Step S R U T lo hi st st') (hlo : ¬ lexLt lo lo') (hhi : ¬ lexLt hi' hi) :
    Step S R U T lo' hi' st st' := by
  obtain ⟨h1, h2, h3, new, h4, h5⟩ := h
  exact ⟨h1, h2, h3, new, h4, blk_mono h5 hlo hhi⟩

/-- Two steps with a common bound compose. -/
theorem step_trans {S R U T : Relation} {lo mid hi : Quad} {st st' st'' : State}
    (h : Step S R U T lo mid st st') (h' : Step S R U T mid hi st' st'')
    (hlo : ¬ lexLt mid lo) (hhi : ¬ lexLt hi mid) :
    Step S R U T lo hi st st'' := by
  obtain ⟨h1, h2, h3, new, h4, h5⟩ := h
  obtain ⟨h1', h2', h3', new', h4', h5'⟩ := h'
  refine ⟨h1'.trans h1, h2'.trans h2, h3'.trans h3, new ++ new', ?_, blk_append h5 h5' hlo hhi⟩
  rw [h4', h4, List.append_assoc]

/-- The rows of a sublist of a relation can be given increasing positions in
the relation. -/
theorem located_of_sublist {l rel : Relation} (h : l.Sublist rel) :
    ∃ ps : List (Nat × Tuple), ps.map Prod.snd = l ∧ Located rel ps := by
  induction h with
  | slnil => exact ⟨[], rfl, List.Pairwise.nil, by simp⟩
  | @cons l rel a _ ih =>
    obtain ⟨ps, hm, hp, hv⟩ := ih
    refine ⟨ps.map (fun x => (x.1 + 1, x.2)), ?_, ?_, ?_⟩
    · simpa [List.map_map, Function.comp_def] using hm
    · rw [List.pairwise_map]
      exact hp.imp (fun h => by simpa using h)
    · intro x hx
      obtain ⟨y, hy, rfl⟩ := List.mem_map.1 hx
      simpa using hv y hy
  | @cons₂ l rel a _ ih =>
    obtain ⟨ps, hm, hp, hv⟩ := ih
    refine ⟨(0, a) :: ps.map (fun x => (x.1 + 1, x.2)), ?_, ?_, ?_⟩
    · simpa [List.map_map, Function.comp_def] using hm
    · rw [List.pairwise_cons]
      refine ⟨?_, ?_⟩
      · intro x hx
        obtain ⟨y, _, rfl⟩ := List.mem_map.1 hx
        simp
      · rw [List.pairwise_map]
        exact hp.imp (fun h => by simpa using h)
    · intro x hx
      rcases List.mem_cons.1 hx with rfl | hx
      · simp
      · obtain ⟨y, hy, rfl⟩ := List.mem_map.1 hx
        simpa using hv y hy

/-- The rows of a bucket can be given increasing positions in the relation. -/
theorem located_keyed (rel : Relation) (key : Int) :
    ∃ ps : List (Nat × Tuple), ps.map Prod.snd = keyed rel key ∧ Located rel ps :=
  located_of_sublist (List.filter_sublist _)

/-- The positions after the first are greater than the first. -/
theorem located_tail {rel : Relation} {x : Nat × Tuple} {ps : List (Nat × Tuple)}
    (h : Located rel (x :: ps)) : Located rel ps ∧ (∀ y ∈ ps, x.1 + 1 ≤ y.1) ∧
      rel[x.1]? = some x.2 := by
  obtain ⟨hp, hv⟩ := h
  rw [List.pairwise_cons] at hp
  exact ⟨⟨hp.2, fun y hy => hv y (List.mem_cons_of_mem _ hy)⟩, fun y hy => hp.1 y hy,
    hv x (List.mem_cons_self _ _)⟩

/-- Emitting the rows found at `(a, b, c, d)` is a step that ends right after
that quadruple. -/
theorem step_emit {S R U T : Relation} {s r u t : Tuple} {a b c d lo : Nat} (st : State)
    (hs : S[a]? = some s) (hr : R[b]? = some r) (hu : U[c]? = some u) (ht : T[d]? = some t)
    (hlo : lo ≤ d) :
    Step S R U T (a, b, c, lo) (a, b, c, d + 1) st (st.emit ⟨s, r, u, t⟩) := by
  refine ⟨rfl, rfl, rfl, [⟨s, r, u, t⟩], rfl, ?_⟩
  refine blk_single (q := (a, b, c, d)) ⟨hs, hr, hu, ht⟩ ?_ ?_
  · rw [lexLt_mk]; omega
  · rw [lexLt_mk]; omega

/-- The loop over `table3` emits a block within the current `(a, b, c)`. -/
theorem loop3_step (hdr : Header) (S R U T : Relation) (s r u : Tuple) (table3 : Relation)
    (a b c : Nat) (hs : S[a]? = some s) (hr : R[b]? = some r) (hu : U[c]? = some u) :
    ∀ (ps : List (Nat × Tuple)) (st : State) (lo : Nat), Located T ps →
      (∀ x ∈ ps, lo ≤ x.1) →
      Step S R U T (a, b, c, lo) (a, b, c + 1, 0) st
        (loop3 hdr S s r u table3 (ps.map Prod.snd) st).1 := by
  intro ps
  induction ps with
  | nil => intro st lo _ _; exact step_refl _ _ _ _ _ _ _
  | cons x ps ih =>
    intro st lo hloc hlo
    obtain ⟨d, t⟩ := x
    obtain ⟨hloc', hgt, ht⟩ := located_tail hloc
    have hd : lo ≤ d := hlo (d, t) (List.mem_cons_self _ _)
    simp only [List.map_cons, loop3]
    cases hfp : finalPred hdr S table3 with
    | none => exact step_refl _ _ _ _ _ _ _
    | some v =>
      cases v with
      | true =>
        have h1 : Step S R U T (a, b, c, lo) (a, b, c, d + 1) st (st.emit ⟨s, r, u, t⟩) :=
          step_emit st hs hr hu ht hd
        have h2 := ih (st.emit ⟨s, r, u, t⟩) (d + 1) hloc' hgt
        refine step_trans h1 h2 ?_ ?_
        · rw [lexLt_mk]; omega
        · rw [lexLt_mk]; omega
      | false =>
        have h2 := ih st (d + 1) hloc' hgt
        refine step_mono h2 ?_ ?_
        · rw [lexLt_mk]; omega
        · rw [lexLt_mk]; omega

/-- Positions increase with the subscript. -/
theorem located_lt_of_lt {rel : Relation} {ps : List (Nat × Tuple)} (h : Located rel ps)
    {j k : Nat} {x y : Nat × Tuple} (hjk : j < k) (hx : ps[j]? = some x) (hy : ps[k]? = some y) :
    x.1 < y.1 := by
  obtain ⟨hj, rfl⟩ := List.getElem?_eq_some.1 hx
  obtain ⟨hk, rfl⟩ := List.getElem?_eq_some.1 hy
  exact (List.pairwise_iff_getElem.1 h.1) j k hj hk hjk

/-- A located row is found in the relation at its position. -/
theorem located_valid {rel : Relation} {ps : List (Nat × Tuple)} (h : Located rel ps)
    {j : Nat} {x : Nat × Tuple} (hx : ps[j]? = some x) : rel[x.1]? = some x.2 := by
  obtain ⟨hj, rfl⟩ := List.getElem?_eq_some.1 hx
  exact h.2 _ (List.getElem_mem _)

/-- The loop over `table2` emits a block within the current `(a, b)`. -/
theorem loop2_step (hdr : Header) (S R U T : Relation) (s r : Tuple) (a b : Nat)
    (hs : S[a]? = some s) (hr : R[b]? = some r) (ps2 : List (Nat × Tuple))
    (hloc : Located U ps2) :
    ∀ (fuel index2 : Nat) (st : State) (lo : Nat), (∀ k, st.T1.find k = bucketOf T k) →
      (∀ j x, index2 ≤ j → ps2[j]? = some x → lo ≤ x.1) →
      Step S R U T (a, b, lo, 0) (a, b + 1, 0, 0) st
        (loop2 hdr S s r (ps2.map Prod.snd) fuel index2 st).1 := by
  intro fuel
  induction fuel with
  | zero =>
    intro index2 st lo _ _
    simp only [loop2]
    split <;> exact step_refl _ _ _ _ _ _ _
  | succ fuel ih =>
    intro index2 st lo hT hlo
    have hnext : ∀ j x, index2 + 1 ≤ j → ps2[j]? = some x → lo ≤ x.1 :=
      fun j x hj hx => hlo j x (by omega) hx
    simp only [loop2]
    split
    · split
      · exact step_refl _ _ _ _ _ _ _
      · split
        · cases hidx : ps2[index2]? with
          | none => simp only [List.getElem?_map, hidx, Option.map_none']; exact step_refl _ _ _ _ _ _ _
          | some x =>
            obtain ⟨c, u⟩ := x
            have hc : lo ≤ c := hlo index2 (c, u) (le_refl _) hidx
            have hu : U[c]? = some u := located_valid hloc hidx
            have hafter : ∀ j x, index2 + 1 ≤ j → ps2[j]? = some x → c + 1 ≤ x.1 :=
              fun j x hj hx => located_lt_of_lt hloc (by omega) hidx hx
            simp only [List.getElem?_map, hidx, Option.map_some']
            cases hkey : u[0]? with
            | none => exact step_refl _ _ _ _ _ _ _
            | some key =>
              simp only
              cases hfind : st.T1.find key with
              | none => exact ih (index2 + 1) st lo hT hnext
              | some table3 =>
                simp only [subscript_of_find hfind]
                have hst : st.setT1 st.T1 = st := rfl
                rw [hst]
                have htab : table3 = keyed T key := bucketOf_eq_some ((hT key).symm.trans hfind)
                obtain ⟨ps3, hm3, hloc3⟩ := located_keyed T key
                have h3 := loop3_step hdr S R U T s r u table3 a b c hs hr hu ps3 st 0 hloc3
                  (fun _ _ => Nat.zero_le _)
                rw [hm3, ← htab] at h3
                generalize loop3 hdr S s r u table3 table3 st = res at h3
                obtain ⟨st3, o⟩ := res
                have hT3 : ∀ k, st3.T1.find k = bucketOf T k := by
                  intro k; rw [h3.2.2.1]; exact hT k
                cases o with
                | finished =>
                  simp only
                  have h4 := ih (index2 + 1) st3 (c + 1) hT3 hafter
                  refine step_mono (step_trans h3 h4 ?_ ?_) ?_ ?_
                  all_goals (rw [lexLt_mk]; omega)
                | outOfRange =>
                  simp only
                  refine step_mono h3 ?_ ?_
                  all_goals (rw [lexLt_mk]; omega)
                | outOfFuel =>
                  simp only
                  refine step_mono h3 ?_ ?_
                  all_goals (rw [lexLt_mk]; omega)
        · exact ih (index2 + 1) st lo hT hnext
    · exact step_refl _ _ _ _ _ _ _

/-- The loop over `table1` emits a block within the current `a`. -/
theorem loop1_step (hdr : Header) (S R U T : Relation) (fuel : Nat) (s : Tuple) (a : Nat)
    (hs : S[a]? = some s) :
    ∀ (ps1 : List (Nat × Tuple)) (st : State) (lo : Nat), Located R ps1 →
      (∀ x ∈ ps1, lo ≤ x.1) → (∀ k, st.U1.find k = bucketOf U k) →
      (∀ k, st.T1.find k = bucketOf T k) →
      Step S R U T (a, lo, 0, 0) (a + 1, 0, 0, 0) st
        (loop1 hdr S fuel s (ps1.map Prod.snd) st).1 := by
  intro ps1
  induction ps1 with
  | nil => intro st lo _ _ _ _; exact step_refl _ _ _ _ _ _ _
  | cons x ps1 ih =>
    intro st lo hloc hlo hU hT
    obtain ⟨b, r⟩ := x
    obtain ⟨hloc', hgt, hr⟩ := located_tail hloc
    have hb : lo ≤ b := hlo (b, r) (List.mem_cons_self _ _)
    simp only [List.map_cons, loop1]
    cases hkey : r[0]? with
    | none => exact step_refl _ _ _ _ _ _ _
    | some key =>
      simp only
      cases hfind : st.U1.find key with
      | none =>
        refine step_mono (ih st (b + 1) hloc' hgt hU hT) ?_ ?_
        all_goals (rw [lexLt_mk]; omega)
      | some table2 =>
        simp only [subscript_of_find hfind]
        have hst : st.setU1 st.U1 = st := rfl
        rw [hst]
        have htab : table2 = keyed U key := bucketOf_eq_some ((hU key).symm.trans hfind)
        obtain ⟨ps2, hm2, hloc2⟩ := located_keyed U key
        have h2 := loop2_step hdr S R U T s r a b hs hr ps2 hloc2 fuel 0 st 0 hT
          (fun _ _ _ _ => Nat.zero_le _)
        rw [hm2, ← htab] at h2
        generalize loop2 hdr S s r table2 fuel 0 st = res at h2
        obtain ⟨st2, o⟩ := res
        have hU2 : ∀ k, st2.U1.find k = bucketOf U k := by
          intro k; rw [h2.2.1]; exact hU k
        have hT2 : ∀ k, st2.T1.find k = bucketOf T k := by
          intro k; rw [h2.2.2.1]; exact hT k
        cases o with
        | finished =>
          simp only
          have h4 := ih st2 (b + 1) hloc' hgt hU2 hT2
          refine step_mono (step_trans h2 h4 ?_ ?_) ?_ ?_
          all_goals (rw [lexLt_mk]; omega)
        | outOfRange =>
          simp only
          refine step_mono h2 ?_ ?_
          all_goals (rw [lexLt_mk]; omega)
        | outOfFuel =>
          simp only
          refine step_mono h2 ?_ ?_
          all_goals (rw [lexLt_mk]; omega)

/-- Recording a visit is a step that emits nothing. -/
theorem step_visit (S R U T : Relation) (lo hi : Quad) (st : State) (n : Nat) :
    Step S R U T lo hi st (st.visit n) :=
  ⟨rfl, rfl, rfl, [], by simp [State.visit], blk_nil S R U T lo hi⟩

/-- A step from a state with one more recorded visit is a step from the state
itself. -/
theorem step_after_visit {S R U T : Relation} {lo hi : Quad} {st st' : State} {n : Nat}
    (h : Step S R U T lo hi (st.visit n) st') : Step S R U T lo hi st st' :=
  h

/-- The loop over `S` emits a block that starts at its cursor. -/
theorem loop0_step (hdr : Header) (S R U T : Relation) :
    ∀ (fuel index0 : Nat) (st : State), (∀ k, st.R1.find k = bucketOf R k) →
      (∀ k, st.U1.find k = bucketOf U k) → (∀ k, st.T1.find k = bucketOf T k) →
      Step S R U T (index0, 0, 0, 0) (S.length, 0, 0, 0) st (loop0 hdr S fuel index0 st).1 := by
  intro fuel
  induction fuel with
  | zero =>
    intro index0 st _ _ _
    simp only [loop0]
    split <;> exact step_refl _ _ _ _ _ _ _
  | succ fuel ih =>
    intro index0 st hR hU hT
    have hnext : Step S R U T (index0, 0, 0, 0) (S.length, 0, 0, 0) st
        (loop0 hdr S fuel (index0 + 1) (st.visit index0)).1 := by
      have h := ih (index0 + 1) (st.visit index0) hR hU hT
      refine step_mono (step_after_visit h) ?_ ?_
      all_goals (rw [lexLt_mk]; omega)
    have hstop : Step S R U T (index0, 0, 0, 0) (S.length, 0, 0, 0) st (st.visit index0) :=
      step_visit _ _ _ _ _ _ _ _
    simp only [loop0]
    split
    · split
      · exact hstop
      · split
        · cases hidx : S[index0]? with
          | none => exact hstop
          | some s =>
            have hlt : index0 < S.length := (List.getElem?_eq_some.1 hidx).1
            simp only
            cases hkey : s[0]? with
            | none => exact hstop
            | some key =>
              simp only
              cases hfind : (st.visit index0).R1.find key with
              | none => exact hnext
              | some table1 =>
                simp only [subscript_of_find hfind]
                have hst : (st.visit index0).setR1 (st.visit index0).R1 = st.visit index0 := rfl
                rw [hst]
                have htab : table1 = keyed R key := bucketOf_eq_some ((hR key).symm.trans hfind)
                obtain ⟨ps1, hm1, hloc1⟩ := located_keyed R key
                have h1 := loop1_step hdr S R U T fuel s index0 hidx ps1 (st.visit index0) 0
                  hloc1 (fun _ _ => Nat.zero_le _) hU hT
                rw [hm1, ← htab] at h1
                generalize loop1 hdr S fuel s table1 (st.visit index0) = res at h1
                obtain ⟨st1, o⟩ := res
                have hR1 : ∀ k, st1.R1.find k = bucketOf R k := by
                  intro k; rw [h1.1]; exact hR k
                have hU1 : ∀ k, st1.U1.find k = bucketOf U k := by
                  intro k; rw [h1.2.1]; exact hU k
                have hT1 : ∀ k, st1.T1.find k = bucketOf T k := by
                  intro k; rw [h1.2.2.1]; exact hT k
                have h01 : Step S R U T (index0, 0, 0, 0) (index0 + 1, 0, 0, 0) st st1 :=
                  step_after_visit h1
                cases o with
                | finished =>
                  simp only
                  have h4 := ih (index0 + 1) st1 hR1 hU1 hT1
                  refine step_trans h01 h4 ?_ ?_
                  all_goals (rw [lexLt_mk]; omega)
                | outOfRange =>
                  simp only
                  refine step_mono h01 ?_ ?_
                  all_goals (rw [lexLt_mk]; omega)
                | outOfFuel =>
                  simp only
                  refine step_mono h01 ?_ ?_
                  all_goals (rw [lexLt_mk]; omega)
        · exact hnext
    · exact step_refl _ _ _ _ _ _ _

/-- The results of a run form a block. -/
theorem query_step (hdr : Header) (fuel : Nat) (S R U T : Relation) :
    Blk S R U T (0, 0, 0, 0) (S.length, 0, 0, 0) (query hdr fuel S R U T).1.emitted := by
  unfold query
  cases hR : hashBuild R with
  | none => exact blk_nil _ _ _ _ _ _
  | some R1 =>
    cases hU : hashBuild U with
    | none => exact blk_nil _ _ _ _ _ _
    | some U1 =>
      cases hT : hashBuild T with
      | none => exact blk_nil _ _ _ _ _ _
      | some T1 =>
        obtain ⟨_, _, _, new, hnew, hblk⟩ := loop0_step hdr S R U T fuel 0 ⟨R1, U1, T1, [], []⟩
          (hashBuild_find hR) (hashBuild_find hU) (hashBuild_find hT)
        simp only at hnew ⊢
        rw [hnew]
        simpa using hblk

/-! ## Outer loop: lemmas -/

/-- With `i` not below the size of `S`, the loop over `S` runs no iteration. -/
theorem loop0_idle (hdr : Header) (S : Relation) (h : ¬ hdr.i < S.length) (fuel index0 : Nat)
    (st : State) : loop0 hdr S fuel index0 st = (st, Outcome.finished) := by
  cases fuel <;> simp [loop0, h]

/-- With `i` below the size of `S`, the loop over `S` never exits through its
condition. -/
theorem loop0_never_finished (hdr : Header) (S : Relation) (h : hdr.i < S.length) :
    ∀ (fuel index0 : Nat) (st : State), (loop0 hdr S fuel index0 st).2 ≠ Outcome.finished := by
  intro fuel
  induction fuel with
  | zero => intro index0 st; simp [loop0, h]
  | succ fuel ih =>
    intro index0 st
    simp only [loop0, h, if_true]
    split
    · simp
    · split
      · split
        · simp
        · split
          · simp
          · split
            · exact ih _ _
            · split
              · exact ih _ _
              · rename_i hne _
                exact fun hc => hne hc
      · exact ih _ _

/-! ## Frame and empty relations: lemmas -/

/-- Results that can be read as positions in the four relations are none when
one of the relations is empty. -/
theorem blk_of_empty {S R U T : Relation} {lo hi : Quad} {es : List Combination}
    (h : Blk S R U T lo hi es) (he : S = [] ∨ R = [] ∨ U = [] ∨ T = []) : es = [] := by
  obtain ⟨qs, hf, _, _⟩ := h
  cases hf with
  | nil => rfl
  | cons hat _ =>
    obtain ⟨h1, h2, h3, h4⟩ := hat
    rcases he with e | e | e | e <;> subst e
    · simp at h1
    · simp at h2
    · simp at h3
    · simp at h4

/-! ## Width of the loaded rows: lemmas -/

/-- The read loop only ever pushes rows of two columns. -/
theorem scanLoop_width (junk : Int) (tr : Bool) (rest : List Int) :
    ∀ (count : Nat) (tmp : Tuple) (rel : Relation), count = tmp.length → count < 2 →
      (∀ t ∈ rel, t.length = 2) → ∀ t ∈ scanLoop junk tr rest count tmp rel, t.length = 2 := by
  induction rest with
  | nil =>
    intro count tmp rel hc _ hrel t ht
    simp only [scanLoop] at ht
    split at ht
    · rcases List.mem_append.1 ht with h | h
      · exact hrel t h
      · rw [List.mem_singleton] at h
        subst h
        simp only [List.length_append, List.length_singleton]
        omega
    · exact hrel t ht
  | cons j rest ih =>
    intro count tmp rel hc hlt hrel t ht
    have hpush : ∀ x ∈ rel ++ [tmp ++ [j]], count + 1 = 2 → x.length = 2 := by
      intro x hx h2
      rcases List.mem_append.1 hx with h | h
      · exact hrel x h
      · rw [List.mem_singleton] at h
        subst h
        simp only [List.length_append, List.length_singleton]
        omega
    simp only [scanLoop] at ht
    split at ht
    · rename_i h2
      split at ht
      · exact hpush t ht h2
      · exact ih 0 [] (rel ++ [tmp ++ [j]]) rfl (by omega) (fun x hx => hpush x hx h2) t ht
    · rename_i h2
      split at ht
      · exact hrel t ht
      · exact ih (count + 1) (tmp ++ [j]) rel (by simp [hc]) (by omega) hrel t ht

/-- Every row of a loaded relation has two columns. -/
theorem scan_width (junk : Int) (src : Source) : ∀ t ∈ scan junk src, t.length = 2 :=
  scanLoop_width junk src.trailingSpace src.ints 0 [] [] rfl (by omega) (by simp)

/-! ## The index as a partition: lemmas -/

/-- The keys after `h[k] = b`: those of `h`, and `k` at the end when it is new. -/
theorem keys_assign (h : HashIndex) (k : Int) (b : Relation) :
    (h.assign k b).map Prod.fst =
      if k ∈ h.map Prod.fst then h.map Prod.fst else h.map Prod.fst ++ [k] := by
  induction h with
  | nil => simp [HashIndex.assign]
  | cons p h ih =>
    obtain ⟨a, c⟩ := p
    simp only [HashIndex.assign]
    by_cases hak : a = k
    · subst hak
      simp
    · have hka : ¬ k = a := fun e => hak e.symm
      simp only [hak, if_false, List.map_cons, ih, List.mem_cons, hka, false_or]
      split <;> simp

/-- An assignment keeps the keys of an index distinct. -/
theorem nodup_assign (h : HashIndex) (k : Int) (b : Relation)
    (hn : (h.map Prod.fst).Nodup) : ((h.assign k b).map Prod.fst).Nodup := by
  rw [keys_assign]
  split
  · exact hn
  · rename_i hk
    rw [List.nodup_append]
    refine ⟨hn, List.nodup_singleton k, ?_⟩
    intro x hx hx'
    rw [List.mem_singleton] at hx'
    subst hx'
    exact hk hx

/-- One iteration of the build loop keeps the keys distinct. -/
theorem nodup_pushBack (h : HashIndex) (k : Int) (row : Tuple)
    (hn : (h.map Prod.fst).Nodup) :
    (((if (h.find k).isNone then h.assign k [] else h).pushBack k row).map Prod.fst).Nodup := by
  have h1 : ((if (h.find k).isNone then h.assign k [] else h).map Prod.fst).Nodup := by
    split
    · exact nodup_assign h k [] hn
    · exact hn
  unfold HashIndex.pushBack HashIndex.subscript
  apply nodup_assign
  split
  · exact h1
  · exact nodup_assign _ k [] h1

/-- The build loop keeps the keys distinct. -/
theorem hashLoop_nodup (rest : List Tuple) :
    ∀ (h h' : HashIndex), hashLoop rest h = some h' → (h.map Prod.fst).Nodup →
      (h'.map Prod.fst).Nodup := by
  induction rest with
  | nil =>
    intro h h' hrun hn
    simp only [hashLoop, Option.some.injEq] at hrun
    subst hrun
    exact hn
  | cons row rest ih =>
    intro h h' hrun hn
    cases hk : row[1]? with
    | none => simp [hashLoop, hk] at hrun
    | some k =>
      simp only [hashLoop, hk] at hrun
      exact ih _ h' hrun (nodup_pushBack h k row hn)

/-- With distinct keys, `find` returns the bucket of every entry. -/
theorem find_of_mem (h : HashIndex) (hn : (h.map Prod.fst).Nodup) (e : Int × Relation)
    (he : e ∈ h) : h.find e.1 = some e.2 := by
  induction h with
  | nil => simp at he
  | cons p h ih =>
    obtain ⟨a, c⟩ := p
    rw [List.map_cons, List.nodup_cons] at hn
    rcases List.mem_cons.1 he with rfl | he'
    · simp [HashIndex.find]
    · have hne : e.1 ≠ a := by
        intro heq
        apply hn.1
        rw [← heq]
        exact List.mem_map.2 ⟨e, he', rfl⟩
      have hb : (e.1 == a) = false := by simpa using hne
      simp only [HashIndex.find, List.lookup, hb]
      exact ih hn.2 he'

/-- A key has a bucket exactly when it is one of the keys of the index. -/
theorem find_eq_none_iff (h : HashIndex) (k : Int) :
    h.find k = none ↔ k ∉ h.map Prod.fst := by
  simp only [HashIndex.find, List.lookup_eq_none_iff, List.mem_map, not_exists, not_and]
  constructor
  · intro hall p hp heq
    have := hall p hp
    simp [heq] at this
  · intro hall p hp
    have h1 := hall p hp
    simp only [bne_iff_ne, ne_eq]
    exact fun e => h1 e.symm

/-- Among distinct keys, exactly one equals a given member. -/
theorem sum_indicator (ks : List Int) (hn : ks.Nodup) (k0 : Int) (hk : k0 ∈ ks) :
    (ks.map fun k => if k0 = k then 1 else 0).sum = 1 := by
  induction ks with
  | nil => simp at hk
  | cons a ks ih =>
    rw [List.nodup_cons] at hn
    rw [List.map_cons, List.sum_cons]
    by_cases hka : k0 = a
    · subst hka
      have hzero : (ks.map fun k => if k0 = k then 1 else 0) = ks.map fun _ => 0 := by
        apply List.map_congr_left
        intro k hkm
        have : k0 ≠ k := fun e => hn.1 (e ▸ hkm)
        simp [this]
      rw [hzero]
      simp
    · have hk' : k0 ∈ ks := by
        rcases List.mem_cons.1 hk with e | e
        · exact absurd e hka
        · exact e
      simp [hka, ih hn.2 hk']

/-- The buckets of distinct keys that cover column 1 of a relation have as many
rows in all as the relation. -/
theorem sum_keyed (ks : List Int) (hn : ks.Nodup) (rel : Relation)
    (hcov : ∀ t ∈ rel, ∃ k ∈ ks, t[1]? = some k) :
    (ks.map fun k => (keyed rel k).length).sum = rel.length := by
  induction rel with
  | nil => simp [keyed]
  | cons t rel ih =>
    obtain ⟨k0, hk0, ht⟩ := hcov t (List.mem_cons_self _ _)
    have hsplit : (ks.map fun k => (keyed (t :: rel) k).length) =
        ks.map fun k => (if k0 = k then 1 else 0) + (keyed rel k).length := by
      apply List.map_congr_left
      intro k _
      unfold keyed
      by_cases e : k0 = k
      · subst e
        simp [List.filter_cons, ht, Nat.add_comm]
      · simp [List.filter_cons, ht, e]
    rw [hsplit, List.sum_map_add, sum_indicator ks hn k0 hk0,
      ih (fun x hx => hcov x (List.mem_cons_of_mem _ hx))]
    simp [Nat.add_comm]

/-- A row is in the filter by `key` exactly when it is in the relation and has
`key` in column 1. -/
theorem mem_keyed (rel : Relation) (key : Int) (t : Tuple) :
    t ∈ keyed rel key ↔ t ∈ rel ∧ t[1]? = some key := by
  simp [keyed, List.mem_filter]

/-! ## Runs that cannot emit: lemmas -/

/-- When the condition of line 161 is not true for `table3`, the loop over
`table3` leaves the state as it is. -/
theorem loop3_silent (hdr : Header) (S : Relation) (s r u : Tuple) (table3 : Relation)
    (h : finalPred hdr S table3 ≠ some true) :
    ∀ (rest : List Tuple) (st : State), (loop3 hdr S s r u table3 rest st).1 = st := by
  intro rest
  induction rest with
  | nil => intro st; rfl
  | cons t rest ih =>
    intro st
    simp only [loop3]
    split
    · rfl
    · rename_i htrue
      exact absurd htrue h
    · exact ih st

/-- When the condition of line 161 is true for no bucket of `T1_hash`, the loop
over `table2` leaves the state as it is. -/
theorem loop2_silent (hdr : Header) (S : Relation) (s r : Tuple) (table2 : Relation) :
    ∀ (fuel index2 : Nat) (st : State),
      (∀ key b, st.T1.find key = some b → finalPred hdr S b ≠ some true) →
      (loop2 hdr S s r table2 fuel index2 st).1 = st := by
  intro fuel
  induction fuel with
  | zero =>
    intro index2 st _
    simp only [loop2]
    split <;> rfl
  | succ fuel ih =>
    intro index2 st hsil
    simp only [loop2]
    split
    · split
      · rfl
      · split
        · split
          · rfl
          · split
            · rfl
            · rename_i u _ _ key _
              cases hfind : st.T1.find key with
              | none => exact ih _ st hsil
              | some table3 =>
                simp only [subscript_of_find hfind]
                have hst : st.setT1 st.T1 = st := rfl
                rw [hst]
                have h3 := loop3_silent hdr S s r u table3 (hsil key table3 hfind) table3 st
                generalize loop3 hdr S s r u table3 table3 st = res at h3
                obtain ⟨st3, o⟩ := res
                simp only at h3
                subst h3
                cases o with
                | finished => exact ih _ st3 hsil
                | outOfRange => rfl
                | outOfFuel => rfl
        · exact ih _ st hsil
    · rfl

/-- When the condition of line 161 is true for no bucket of `T1_hash`, the loop
over `table1` leaves the state as it is. -/
theorem loop1_silent (hdr : Header) (S : Relation) (fuel : Nat) (s : Tuple) :
    ∀ (rest : List Tuple) (st : State),
      (∀ key b, st.T1.find key = some b → finalPred hdr S b ≠ some true) →
      (loop1 hdr S fuel s rest st).1 = st := by
  intro rest
  induction rest with
  | nil => intro st _; rfl
  | cons r rest ih =>
    intro st hsil
    simp only [loop1]
    split
    · rfl
    · rename_i key _
      cases hfind : st.U1.find key with
      | none => exact ih st hsil
      | some table2 =>
        simp only [subscript_of_find hfind]
        have hst : st.setU1 st.U1 = st := rfl
        rw [hst]
        have h2 := loop2_silent hdr S s r table2 fuel 0 st hsil
        generalize loop2 hdr S s r table2 fuel 0 st = res at h2
        obtain ⟨st2, o⟩ := res
        simp only at h2
        subst h2
        cases o with
        | finished => exact ih st2 hsil
        | outOfRange => rfl
        | outOfFuel => rfl

/-- When the condition of line 161 is true for no bucket of `T1_hash`, the loop
over `S` emits nothing. -/
theorem loop0_silent (hdr : Header) (S : Relation) :
    ∀ (fuel index0 : Nat) (st : State),
      (∀ key b, st.T1.find key = some b → finalPred hdr S b ≠ some true) →
      (loop0 hdr S fuel index0 st).1.emitted = st.emitted := by
  intro fuel
  induction fuel with
  | zero =>
    intro index0 st _
    simp only [loop0]
    split <;> rfl
  | succ fuel ih =>
    intro index0 st hsil
    have hnext : (loop0 hdr S fuel (index0 + 1) (st.visit index0)).1.emitted = st.emitted :=
      ih (index0 + 1) (st.visit index0) hsil
    simp only [loop0]
    split
    · split
      · rfl
      · split
        · split
          · rfl
          · split
            · rfl
            · rename_i s _ _ key _
              cases hfind : (st.visit index0).R1.find key with
              | none => exact hnext
              | some table1 =>
                simp only [subscript_of_find hfind]
                have hst : (st.visit index0).setR1 (st.visit index0).R1 = st.visit index0 := rfl
                rw [hst]
                have h1 := loop1_silent hdr S fuel s table1 (st.visit index0) hsil
                generalize loop1 hdr S fuel s table1 (st.visit index0) = res at h1
                obtain ⟨st1, o⟩ := res
                simp only at h1
                subst h1
                cases o with
                | finished => exact hnext
                | outOfRange => rfl
                | outOfFuel => rfl
        · exact hnext
    · rfl

/-- When the test of line 127 fails on `S[1]`, the loop over `S` emits
nothing. -/
theorem loop0_skip (hdr : Header) (S : Relation) (s1 : Tuple) (h1 : S[1]? = some s1)
    (h2 : hdr.eqVecInt s1 50 = false) :
    ∀ (fuel index0 : Nat) (st : State), (loop0 hdr S fuel index0 st).1.emitted = st.emitted := by
  intro fuel
  induction fuel with
  | zero =>
    intro index0 st
    simp only [loop0]
    split <;> rfl
  | succ fuel ih =>
    intro index0 st
    simp only [loop0, h1, h2]
    split
    · exact ih (index0 + 1) (st.visit index0)
    · rfl

/-! ## The claims -/

/-- C1: for a relation whose rows have two columns, the index build succeeds
and, for every integer key, `find` on the index built on column 1 yields exactly
the rows of the relation whose column 1 equals the key, in the order of the
relation; the index has no bucket exactly for the keys that occur in column 1 of
no row. -/
theorem hashBuild_lookup (rel : Relation) (hw : ∀ t ∈ rel, t.length = 2) :
    ∃ h, hashBuild rel = some h ∧ ∀ key : Int,
      (h.find key).getD [] = rel.filter (fun t => t[1]? == some key) ∧
      (∀ b, h.find key = some b → b = rel.filter (fun t => t[1]? == some key)) ∧
      (h.find key = none ↔ ∀ t ∈ rel, t[1]? ≠ some key) := by
  obtain ⟨h, hb⟩ := hashLoop_total rel [] hw
  refine ⟨h, hb, fun key => ?_⟩
  have hf : h.find key = bucketOf rel key := hashBuild_find hb key
  refine ⟨?_, ?_, ?_⟩
  · rw [hf, bucketOf_getD]; rfl
  · intro b hfb
    exact bucketOf_eq_some (hf.symm.trans hfb)
  · rw [hf]
    unfold bucketOf keyed
    by_cases e : rel.filter (fun t => t[1]? == some key) = []
    · simp only [e, if_true, true_iff]
      intro t ht hk
      have : t ∈ rel.filter (fun t => t[1]? == some key) :=
        List.mem_filter.2 ⟨ht, by simp [hk]⟩
      rw [e] at this
      exact List.not_mem_nil _ this
    · simp only [e, if_false, false_iff, reduceCtorEq]
      intro hall
      apply e
      rw [List.filter_eq_nil_iff]
      intro t ht
      simpa using hall t ht

/-- Witness of C1 on a relation of three rows, two of which share a key. -/
theorem hashBuild_lookup_witness :
    (∀ t ∈ ([[1, 2], [3, 4], [5, 2]] : Relation), t.length = 2) ∧
      ∃ h, hashBuild [[1, 2], [3, 4], [5, 2]] = some h ∧ ∀ key : Int,
        (h.find key).getD [] =
          ([[1, 2], [3, 4], [5, 2]] : Relation).filter (fun t => t[1]? == some key) ∧
        (∀ b, h.find key = some b →
          b = ([[1, 2], [3, 4], [5, 2]] : Relation).filter (fun t => t[1]? == some key)) ∧
        (h.find key = none ↔ ∀ t ∈ ([[1, 2], [3, 4], [5, 2]] : Relation), t[1]? ≠ some key) :=
  ⟨by decide, hashBuild_lookup [[1, 2], [3, 4], [5, 2]] (by decide)⟩

/-- C2, the code at a failing input: on `S = [(1,50)]`, `R = [(100,1)]`,
`U = [(100,100)]`, `T = [(50,100)]` the brute-force nested-loop join yields one
combination, and the join loops emit nothing, whatever `A.h` declares and
whatever the step budget. -/
theorem query_differs_from_nestedLoopJoin (hdr : Header) (fuel : Nat) :
    (query hdr fuel [[1, 50]] [[100, 1]] [[100, 100]] [[50, 100]]).1.emitted = [] ∧
      nestedLoopJoin [[1, 50]] [[100, 1]] [[100, 100]] [[50, 100]] =
        [⟨[1, 50], [100, 1], [100, 100], [50, 100]⟩] := by
  refine ⟨?_, by decide⟩
  have hR : hashBuild [[100, 1]] = some [(1, [[100, 1]])] := by decide
  have hU : hashBuild [[100, 100]] = some [(100, [[100, 100]])] := by decide
  have hT : hashBuild [[50, 100]] = some [(100, [[50, 100]])] := by decide
  simp only [query, hR, hU, hT]
  cases fuel with
  | zero => simp only [loop0]; split <;> rfl
  | succ fuel =>
    simp only [loop0]
    split
    · rfl
    · rfl

/-- C3, the code at a failing input: with `i = 0` and comparisons under which
the tests of lines 127, 149 and 161 pass, the loops emit, for
`S = [(1,7),(50,100)]`, `R = [(100,1)]`, `U = [(100,100)]`,
`T = [(50,100),(9,100)]`, two combinations whose `S` row is `(1,7)`, with column
1 different from 50, and the second of which has the `T` row `(9,100)`, with
column 0 different from 50. -/
theorem query_emits_unfiltered_rows (hdr : Header) (hi : hdr.i = 0)
    (h1 : hdr.eqVecInt [50, 100] 50 = true) (h2 : hdr.eqIntVec 100 [100, 100] = true)
    (h3 : hdr.eqIntVec 100 [9, 100] = true) (fuel : Nat) :
    (query hdr (fuel + 2) [[1, 7], [50, 100]] [[100, 1]] [[100, 100]]
        [[50, 100], [9, 100]]).1.emitted =
      [⟨[1, 7], [100, 1], [100, 100], [50, 100]⟩, ⟨[1, 7], [100, 1], [100, 100], [9, 100]⟩] := by
  have hR : hashBuild [[100, 1]] = some [(1, [[100, 1]])] := by decide
  have hU : hashBuild [[100, 100]] = some [(100, [[100, 100]])] := by decide
  have hT : hashBuild [[50, 100], [9, 100]] = some [(100, [[50, 100], [9, 100]])] := by decide
  simp only [query, hR, hU, hT]
  cases fuel <;>
    simp [loop0, loop1, loop2, loop3, finalPred, hi, h1, h2, h3, HashIndex.find,
      HashIndex.subscript, State.visit, State.setR1, State.setU1, State.setT1, State.emit,
      List.lookup]

/-- Witness of the C3 evaluation at the header `sampleHeader`. -/
theorem query_emits_unfiltered_rows_witness :
    (query sampleHeader 2 [[1, 7], [50, 100]] [[100, 1]] [[100, 100]]
        [[50, 100], [9, 100]]).1.emitted =
      [⟨[1, 7], [100, 1], [100, 100], [50, 100]⟩, ⟨[1, 7], [100, 1], [100, 100], [9, 100]⟩] :=
  query_emits_unfiltered_rows sampleHeader rfl (by decide) (by decide) (by decide) 0

/-- C4, the code on every input: whatever `A.h` declares and whatever the step
budget, either the run does not end with the condition of the loop over `S`
false, or the body of that loop was never entered and nothing was emitted.  So
on a non-empty `S` (such as `[(1,50),(2,50)]`) no run visits each row once and
then stops. -/
theorem query_never_completes_scan (hdr : Header) (fuel : Nat) (S R U T : Relation) :
    (query hdr fuel S R U T).2 ≠ Outcome.finished ∨
      ((query hdr fuel S R U T).1.visited = [] ∧ (query hdr fuel S R U T).1.emitted = []) := by
  cases hR : hashBuild R with
  | none => exact Or.inl (by simp [query, hR])
  | some R1 =>
    cases hU : hashBuild U with
    | none => exact Or.inl (by simp [query, hR, hU])
    | some U1 =>
      cases hT : hashBuild T with
      | none => exact Or.inl (by simp [query, hR, hU, hT])
      | some T1 =>
        simp only [query, hR, hU, hT]
        by_cases h : hdr.i < S.length
        · exact Or.inl (loop0_never_finished hdr S h fuel 0 _)
        · rw [loop0_idle hdr S h]
          exact Or.inr ⟨rfl, rfl⟩

/-- C5, the code at a failing input: with `i = 0` and comparisons under which
the tests of lines 127, 149 and 161 pass, the loops emit two combinations for
`S = [(1,50),(50,100)]` and none for the sub-sequence of `S` whose rows have 50
in column 1, which is `[(1,50)]`. -/
theorem query_stage0_not_per_row (hdr : Header) (hi : hdr.i = 0)
    (h1 : hdr.eqVecInt [50, 100] 50 = true) (h2 : hdr.eqIntVec 100 [100, 100] = true)
    (h3 : hdr.eqIntVec 100 [9, 100] = true) (fuel : Nat) :
    (query hdr (fuel + 2) [[1, 50], [50, 100]] [[100, 1]] [[100, 100]]
        [[50, 100], [9, 100]]).1.emitted =
      [⟨[1, 50], [100, 1], [100, 100], [50, 100]⟩,
        ⟨[1, 50], [100, 1], [100, 100], [9, 100]⟩] ∧
    (query hdr (fuel + 2)
        (([[1, 50], [50, 100]] : Relation).filter (fun s => s[1]? == some 50))
        [[100, 1]] [[100, 100]] [[50, 100], [9, 100]]).1.emitted = [] := by
  have hR : hashBuild [[100, 1]] = some [(1, [[100, 1]])] := by decide
  have hU : hashBuild [[100, 100]] = some [(100, [[100, 100]])] := by decide
  have hT : hashBuild [[50, 100], [9, 100]] = some [(100, [[50, 100], [9, 100]])] := by decide
  have hS : ([[1, 50], [50, 100]] : Relation).filter (fun s => s[1]? == some 50) = [[1, 50]] := by
    decide
  rw [hS]
  simp only [query, hR, hU, hT]
  constructor
  · cases fuel <;>
      simp [loop0, loop1, loop2, loop3, finalPred, hi, h1, h2, h3, HashIndex.find,
        HashIndex.subscript, State.visit, State.setR1, State.setU1, State.setT1, State.emit,
        List.lookup]
  · simp [loop0, hi, State.visit]

/-- Witness of the C5 evaluation at the header `sampleHeader`. -/
theorem query_stage0_not_per_row_witness :
    (query sampleHeader 2 [[1, 50], [50, 100]] [[100, 1]] [[100, 100]]
        [[50, 100], [9, 100]]).1.emitted =
      [⟨[1, 50], [100, 1], [100, 100], [50, 100]⟩,
        ⟨[1, 50], [100, 1], [100, 100], [9, 100]⟩] ∧
    (query sampleHeader 2
        (([[1, 50], [50, 100]] : Relation).filter (fun s => s[1]? == some 50))
        [[100, 1]] [[100, 100]] [[50, 100], [9, 100]]).1.emitted = [] :=
  query_stage0_not_per_row sampleHeader rfl (by decide) (by decide) (by decide) 0

/-- C6: for all inputs, whatever `A.h` declares and whatever the step budget,
the emitted combinations can be read as quadruples of positions (in `S`, `R`,
`U`, `T`) that increase strictly in the lexicographic order, the position in `S`
being the most significant and the position in `T` the least. -/
theorem query_emitted_in_nested_order (hdr : Header) (fuel : Nat) (S R U T : Relation) :
    ∃ qs : List Quad, qs.Pairwise lexLt ∧
      List.Forall₂ (At S R U T) qs (query hdr fuel S R U T).1.emitted := by
  obtain ⟨qs, h1, h2, _⟩ := query_step hdr fuel S R U T
  exact ⟨qs, h2, h1⟩

/-- C7: a source that holds the `2n` integers of `n` pairs is loaded as exactly
those `n` rows, in order, with or without white space after the last integer;
the empty source (`n = 0`) gives the empty relation. -/
theorem scan_even (junk : Int) (trailing : Bool) (pairs : List (Int × Int)) :
    scan junk ⟨flatten pairs, trailing⟩ = pairs.map pairRow := by
  simp [scan, scanLoop_even]

/-- C8, counterexample: the source `1 7 50 100 3` holds five integers and is
loaded as the relation `[(1,7),(50,100)]`; with it as `S` the join runs and
emits two combinations. -/
theorem scan_odd_no_error :
    scan 0 ⟨[1, 7, 50, 100, 3], false⟩ = [[1, 7], [50, 100]] ∧
      (program sampleHeader (fun _ => 0) 2 ⟨[1, 7, 50, 100, 3], false⟩ ⟨[100, 1], false⟩
          ⟨[100, 100], false⟩ ⟨[50, 100, 9, 100], false⟩).1.emitted =
        [⟨[1, 7], [100, 1], [100, 100], [50, 100]⟩,
          ⟨[1, 7], [100, 1], [100, 100], [9, 100]⟩] := by
  decide

/-- C8 as amended: a source that holds the `2n + 1` integers of `n` pairs and
one more, with no white space after the last, is loaded without error as the `n`
rows of the pairs, and the join runs on the relation so loaded. -/
theorem program_odd_source (hdr : Header) (junk : Fin 4 → Int) (fuel : Nat)
    (pairs : List (Int × Int)) (x : Int) (fR fU fT : Source) :
    scan (junk 0) ⟨flatten pairs ++ [x], false⟩ = pairs.map pairRow ∧
      program hdr junk fuel ⟨flatten pairs ++ [x], false⟩ fR fU fT =
        query hdr fuel (pairs.map pairRow) (scan (junk 1) fR) (scan (junk 2) fU)
          (scan (junk 3) fT) := by
  have h : scan (junk 0) ⟨flatten pairs ++ [x], false⟩ = pairs.map pairRow := by
    simp [scan, scanLoop_odd]
  exact ⟨h, by rw [program, h]⟩

/-- C9, the code on the failing inputs: a source that holds the `2n + 1`
integers of `n` pairs and one more, followed by white space, is loaded as
`n + 1` rows, the last of which pairs the last integer with the value left in
`j` by the failed extraction. -/
theorem scan_odd_trailing_space (junk : Int) (pairs : List (Int × Int)) (x : Int) :
    scan junk ⟨flatten pairs ++ [x], true⟩ = pairs.map pairRow ++ [[x, junk]] := by
  simp [scan, scanLoop_odd]

/-- C10, the code at failing inputs.  Whatever `A.h` declares: with `R`, `U`,
`T` empty the run on an `S` of `i` rows ends normally, and the run on `S` with
one more row (which matches no row of `R`) does not.  With the header
`sampleHeader`: the run on `S = [(1,7),(50,100)]` emits two combinations, and
the run on `S` with the row `(999,0)`, which matches no row of `R`, inserted at
position 1 emits none. -/
theorem query_unmatched_row_changes_run (hdr : Header) (fuel : Nat) :
    ((query hdr fuel (List.replicate hdr.i [7, 7]) [] [] []).2 = Outcome.finished ∧
      (query hdr fuel ([7, 7] :: List.replicate hdr.i [7, 7]) [] [] []).2
        ≠ Outcome.finished) ∧
    ((query sampleHeader 3 [[1, 7], [50, 100]] [[100, 1]] [[100, 100]]
        [[50, 100], [9, 100]]).1.emitted =
      [⟨[1, 7], [100, 1], [100, 100], [50, 100]⟩,
        ⟨[1, 7], [100, 1], [100, 100], [9, 100]⟩] ∧
     (query sampleHeader 3 [[1, 7], [999, 0], [50, 100]] [[100, 1]] [[100, 100]]
        [[50, 100], [9, 100]]).1.emitted = []) := by
  refine ⟨⟨?_, ?_⟩, by decide⟩
  · have h : ¬ hdr.i < (List.replicate hdr.i ([7, 7] : Tuple)).length := by simp
    simp only [query, hashBuild, hashLoop]
    rw [loop0_idle hdr _ h]
  · have h : hdr.i < (([7, 7] : Tuple) :: List.replicate hdr.i [7, 7]).length := by simp
    simp only [query, hashBuild, hashLoop]
    exact loop0_never_finished hdr _ h fuel 0 _

/-- C11: for all inputs on which the three builds succeed, whatever `A.h`
declares, whatever the step budget and however the run ends, the indexes
`R1_hash`, `U1_hash` and `T1_hash` after the join loops are exactly the indexes
the builds produced: no probe inserts a bucket. -/
theorem query_leaves_indexes (hdr : Header) (fuel : Nat) (S R U T : Relation)
    (R1 U1 T1 : HashIndex) (hR : hashBuild R = some R1) (hU : hashBuild U = some U1)
    (hT : hashBuild T = some T1) :
    (query hdr fuel S R U T).1.R1 = R1 ∧ (query hdr fuel S R U T).1.U1 = U1 ∧
      (query hdr fuel S R U T).1.T1 = T1 := by
  simp only [query, hR, hU, hT]
  obtain ⟨h1, h2, h3, _⟩ := loop0_step hdr S R U T fuel 0 ⟨R1, U1, T1, [], []⟩
    (hashBuild_find hR) (hashBuild_find hU) (hashBuild_find hT)
  exact ⟨h1, h2, h3⟩

/-- Witness of C11 on a run that probes an absent key (`7` in `R1_hash`) and
emits two combinations. -/
theorem query_leaves_indexes_witness :
    (hashBuild [[100, 1]] = some [(1, [[100, 1]])] ∧
      hashBuild [[100, 100]] = some [(100, [[100, 100]])] ∧
      hashBuild [[50, 100], [9, 100]] = some [(100, [[50, 100], [9, 100]])]) ∧
    ((query sampleHeader 5 [[7, 7], [50, 100], [1, 7]] [[100, 1]] [[100, 100]]
        [[50, 100], [9, 100]]).1.R1 = [(1, [[100, 1]])] ∧
      (query sampleHeader 5 [[7, 7], [50, 100], [1, 7]] [[100, 1]] [[100, 100]]
        [[50, 100], [9, 100]]).1.U1 = [(100, [[100, 100]])] ∧
      (query sampleHeader 5 [[7, 7], [50, 100], [1, 7]] [[100, 1]] [[100, 100]]
        [[50, 100], [9, 100]]).1.T1 = [(100, [[50, 100], [9, 100]])]) :=
  ⟨by decide, query_leaves_indexes sampleHeader 5 _ _ _ _ _ _ _ (by decide) (by decide)
    (by decide)⟩

/-- C12, the code on the inputs of the claim.  Whatever `A.h` declares and
whatever the step budget, a run with `S`, `R`, `U` or `T` empty emits nothing;
but the run on an `S` of `i + 1` rows with `R`, `U` and `T` empty does not end
with the condition of the loop over `S` false. -/
theorem query_on_empty_relation (hdr : Header) (fuel : Nat) (S R U T : Relation) :
    ((query hdr fuel [] R U T).1.emitted = [] ∧ (query hdr fuel S [] U T).1.emitted = [] ∧
      (query hdr fuel S R [] T).1.emitted = [] ∧ (query hdr fuel S R U []).1.emitted = []) ∧
    (query hdr fuel (List.replicate (hdr.i + 1) [7, 7]) [] [] []).2 ≠ Outcome.finished := by
  refine ⟨⟨?_, ?_, ?_, ?_⟩, ?_⟩
  · exact blk_of_empty (query_step hdr fuel [] R U T) (Or.inl rfl)
  · exact blk_of_empty (query_step hdr fuel S [] U T) (Or.inr (Or.inl rfl))
  · exact blk_of_empty (query_step hdr fuel S R [] T) (Or.inr (Or.inr (Or.inl rfl)))
  · exact blk_of_empty (query_step hdr fuel S R U []) (Or.inr (Or.inr (Or.inr rfl)))
  · have h : hdr.i < (List.replicate (hdr.i + 1) ([7, 7] : Tuple)).length := by simp
    simp only [query, hashBuild, hashLoop]
    exact loop0_never_finished hdr _ h fuel 0 _

/-- C13, the code at a failing input and at the input of the claim.  In
`U = [(100,5)]` no row has 100 in column 1; with `i = 0` and comparisons under
which the tests of lines 127, 149 and 161 pass, the loops emit two combinations
for `S = [(1,7),(50,100)]`, `R = [(5,1)]`, that `U` and
`T = [(50,100),(9,100)]`.  On the input named in the claim nothing is emitted,
whatever the step budget. -/
theorem query_emits_without_u_filter (hdr : Header) (hi : hdr.i = 0)
    (h1 : hdr.eqVecInt [50, 100] 50 = true) (h2 : hdr.eqIntVec 100 [100, 5] = true)
    (h3 : hdr.eqIntVec 100 [9, 100] = true) (fuel : Nat) :
    (∀ u ∈ ([[100, 5]] : Relation), u[1]? ≠ some 100) ∧
    (query hdr (fuel + 2) [[1, 7], [50, 100]] [[5, 1]] [[100, 5]]
        [[50, 100], [9, 100]]).1.emitted =
      [⟨[1, 7], [5, 1], [100, 5], [50, 100]⟩, ⟨[1, 7], [5, 1], [100, 5], [9, 100]⟩] ∧
    (query hdr fuel [[1, 50], [2, 51]] [[10, 1], [11, 2]] [[20, 10], [21, 99]]
        [[100, 20], [30, 21]]).1.emitted = [] := by
  refine ⟨by decide, ?_, ?_⟩
  · have hR : hashBuild [[5, 1]] = some [(1, [[5, 1]])] := by decide
    have hU : hashBuild [[100, 5]] = some [(5, [[100, 5]])] := by decide
    have hT : hashBuild [[50, 100], [9, 100]] = some [(100, [[50, 100], [9, 100]])] := by
      decide
    simp only [query, hR, hU, hT]
    cases fuel <;>
      simp [loop0, loop1, loop2, loop3, finalPred, hi, h1, h2, h3, HashIndex.find,
        HashIndex.subscript, State.visit, State.setR1, State.setU1, State.setT1, State.emit,
        List.lookup]
  · have hR : hashBuild [[10, 1], [11, 2]] = some [(1, [[10, 1]]), (2, [[11, 2]])] := by decide
    have hU : hashBuild [[20, 10], [21, 99]] = some [(10, [[20, 10]]), (99, [[21, 99]])] := by
      decide
    have hT : hashBuild [[100, 20], [30, 21]] = some [(20, [[100, 20]]), (21, [[30, 21]])] := by
      decide
    simp only [query, hR, hU, hT]
    apply loop0_silent
    intro key b hfind
    simp only [HashIndex.find, List.lookup] at hfind
    split at hfind
    · simp only [Option.some.injEq] at hfind
      subst hfind
      simp [finalPred]
    · split at hfind
      · simp only [Option.some.injEq] at hfind
        subst hfind
        simp [finalPred]
      · simp at hfind

/-- Witness of the C13 evaluation at the header `sampleHeader`. -/
theorem query_emits_without_u_filter_witness :
    (∀ u ∈ ([[100, 5]] : Relation), u[1]? ≠ some 100) ∧
    (query sampleHeader 2 [[1, 7], [50, 100]] [[5, 1]] [[100, 5]]
        [[50, 100], [9, 100]]).1.emitted =
      [⟨[1, 7], [5, 1], [100, 5], [50, 100]⟩, ⟨[1, 7], [5, 1], [100, 5], [9, 100]⟩] ∧
    (query sampleHeader 0 [[1, 50], [2, 51]] [[10, 1], [11, 2]] [[20, 10], [21, 99]]
        [[100, 20], [30, 21]]).1.emitted = [] :=
  query_emits_without_u_filter sampleHeader rfl (by decide) (by decide) (by decide) 0

/-- C14, the code at the input of the claim: on `S = [(1,50)]`, `R = [(100,1)]`,
`U = [(100,100)]`, `T = [(50,100)]`, whatever `A.h` declares, a run that is
given at least one step either enters the body of the loop over `S` once and
stops at the out-of-range subscript `S[1]` of line 127, or never enters it; in
both cases nothing has been emitted. -/
theorem query_single_match_emits_nothing (hdr : Header) (fuel : Nat) :
    query hdr (fuel + 1) [[1, 50]] [[100, 1]] [[100, 100]] [[50, 100]] =
        (⟨[(1, [[100, 1]])], [(100, [[100, 100]])], [(100, [[50, 100]])], [], [0]⟩,
          Outcome.outOfRange) ∨
      query hdr (fuel + 1) [[1, 50]] [[100, 1]] [[100, 100]] [[50, 100]] =
        (⟨[(1, [[100, 1]])], [(100, [[100, 100]])], [(100, [[50, 100]])], [], []⟩,
          Outcome.finished) := by
  have hR : hashBuild [[100, 1]] = some [(1, [[100, 1]])] := by decide
  have hU : hashBuild [[100, 100]] = some [(100, [[100, 100]])] := by decide
  have hT : hashBuild [[50, 100]] = some [(100, [[50, 100]])] := by decide
  simp only [query, hR, hU, hT, loop0]
  by_cases h : hdr.i = 0
  · exact Or.inl (by simp [h, State.visit])
  · exact Or.inr (by simp [h])

/-- C15, the code on the inputs of the claim.  Every row of every loaded
relation has exactly two columns, and every index build on a loaded relation
stays in range; but with `i = 0` the join loops run on the relations loaded from
the sources `1 50`, `100 1`, `100 100`, `50 100` stop at an out-of-range
subscript (`S[1]`, line 127). -/
theorem program_reaches_out_of_range (hdr : Header) (hi : hdr.i = 0) (junk : Fin 4 → Int)
    (fuel : Nat) :
    (∀ (j : Int) (src : Source), ∀ t ∈ scan j src, t.length = 2) ∧
    (∀ (j : Int) (src : Source), ∃ h, hashBuild (scan j src) = some h) ∧
    (program hdr junk (fuel + 1) ⟨[1, 50], false⟩ ⟨[100, 1], false⟩ ⟨[100, 100], false⟩
        ⟨[50, 100], false⟩).2 = Outcome.outOfRange := by
  refine ⟨scan_width, fun j src => hashLoop_total _ [] (scan_width j src), ?_⟩
  have hS : ∀ j, scan j ⟨[1, 50], false⟩ = [[1, 50]] := fun j => by simp [scan, scanLoop]
  have hR : ∀ j, scan j ⟨[100, 1], false⟩ = [[100, 1]] := fun j => by simp [scan, scanLoop]
  have hU : ∀ j, scan j ⟨[100, 100], false⟩ = [[100, 100]] := fun j => by simp [scan, scanLoop]
  have hT : ∀ j, scan j ⟨[50, 100], false⟩ = [[50, 100]] := fun j => by simp [scan, scanLoop]
  have hbR : hashBuild [[100, 1]] = some [(1, [[100, 1]])] := by decide
  have hbU : hashBuild [[100, 100]] = some [(100, [[100, 100]])] := by decide
  have hbT : hashBuild [[50, 100]] = some [(100, [[50, 100]])] := by decide
  simp [program, hS, hR, hU, hT, query, hbR, hbU, hbT, loop0, hi]

/-- Witness of the C15 evaluation at the header `sampleHeader`. -/
theorem program_reaches_out_of_range_witness :
    (∀ (j : Int) (src : Source), ∀ t ∈ scan j src, t.length = 2) ∧
    (∀ (j : Int) (src : Source), ∃ h, hashBuild (scan j src) = some h) ∧
    (program sampleHeader (fun _ => 0) 1 ⟨[1, 50], false⟩ ⟨[100, 1], false⟩
        ⟨[100, 100], false⟩ ⟨[50, 100], false⟩).2 = Outcome.outOfRange :=
  program_reaches_out_of_range sampleHeader rfl (fun _ => 0) 0

/-- C16: the index built from a relation whose rows have two columns partitions
the relation: its keys are distinct and are exactly the values that occur in
column 1, no bucket is empty, every row of the bucket of key `k` is a row of the
relation with `k` in column 1, and the sizes of the buckets add up to the number
of rows of the relation. -/
theorem hashBuild_partitions (rel : Relation) (hw : ∀ t ∈ rel, t.length = 2) :
    ∃ h, hashBuild rel = some h ∧ (h.map Prod.fst).Nodup ∧
      (∀ k : Int, k ∈ h.map Prod.fst ↔ ∃ t ∈ rel, t[1]? = some k) ∧
      (∀ e ∈ h, e.2 ≠ []) ∧
      (∀ e ∈ h, ∀ t ∈ e.2, t ∈ rel ∧ t[1]? = some e.1) ∧
      (h.map fun e => e.2.length).sum = rel.length := by
  obtain ⟨h, hb⟩ := hashLoop_total rel [] hw
  have hn : (h.map Prod.fst).Nodup := hashLoop_nodup rel [] h hb (by simp)
  have hf : ∀ key, h.find key = bucketOf rel key := fun key => hashBuild_find hb key
  have hbucket : ∀ e ∈ h, e.2 = keyed rel e.1 ∧ e.2 ≠ [] := by
    intro e he
    have h1 : bucketOf rel e.1 = some e.2 := (hf e.1).symm.trans (find_of_mem h hn e he)
    have h2 := bucketOf_eq_some h1
    refine ⟨h2, ?_⟩
    intro hnil
    unfold bucketOf at h1
    rw [← h2, hnil] at h1
    simp at h1
  have hkeys : ∀ k : Int, k ∈ h.map Prod.fst ↔ ∃ t ∈ rel, t[1]? = some k := by
    intro k
    constructor
    · intro hk
      have h1 : h.find k ≠ none := fun e => (find_eq_none_iff h k).1 e hk
      rw [hf] at h1
      unfold bucketOf at h1
      by_cases e : keyed rel k = []
      · simp [e] at h1
      · obtain ⟨t, ht⟩ := List.exists_mem_of_ne_nil _ e
        exact ⟨t, (mem_keyed rel k t).1 ht⟩
    · rintro ⟨t, ht, hk⟩
      by_contra hnot
      have h1 := (find_eq_none_iff h k).2 hnot
      rw [hf] at h1
      unfold bucketOf at h1
      have hmem : t ∈ keyed rel k := (mem_keyed rel k t).2 ⟨ht, hk⟩
      by_cases e : keyed rel k = []
      · rw [e] at hmem
        exact List.not_mem_nil _ hmem
      · simp [e] at h1
  refine ⟨h, hb, hn, hkeys, fun e he => (hbucket e he).2, ?_, ?_⟩
  · intro e he t ht
    rw [(hbucket e he).1] at ht
    exact (mem_keyed rel e.1 t).1 ht
  · have hmap : (h.map fun e => e.2.length) =
        (h.map Prod.fst).map fun k => (keyed rel k).length := by
      rw [List.map_map]
      apply List.map_congr_left
      intro e he
      simp only [Function.comp_apply]
      rw [← (hbucket e he).1]
    rw [hmap]
    apply sum_keyed _ hn
    intro t ht
    have hlen := hw t ht
    obtain ⟨k, hk⟩ : ∃ k, t[1]? = some k := by
      match t, hlen with
      | [a, b], _ => exact ⟨b, rfl⟩
    exact ⟨k, (hkeys k).2 ⟨t, ht, hk⟩, hk⟩

/-- Witness of C16 on a relation of three rows, two of which share a key. -/
theorem hashBuild_partitions_witness :
    (∀ t ∈ ([[1, 2], [3, 4], [5, 2]] : Relation), t.length = 2) ∧
      ∃ h, hashBuild [[1, 2], [3, 4], [5, 2]] = some h ∧ (h.map Prod.fst).Nodup ∧
        (∀ k : Int, k ∈ h.map Prod.fst ↔
          ∃ t ∈ ([[1, 2], [3, 4], [5, 2]] : Relation), t[1]? = some k) ∧
        (∀ e ∈ h, e.2 ≠ []) ∧
        (∀ e ∈ h, ∀ t ∈ e.2, t ∈ ([[1, 2], [3, 4], [5, 2]] : Relation) ∧ t[1]? = some e.1) ∧
        (h.map fun e => e.2.length).sum = ([[1, 2], [3, 4], [5, 2]] : Relation).length :=
  ⟨by decide, hashBuild_partitions [[1, 2], [3, 4], [5, 2]] (by decide)⟩

/-- C17, the code at a failing input: with `i = 0` and comparisons under which
the tests of lines 127, 149 and 161 pass, the loops emit, for
`S = [(2,50),(50,100)]`, `R = [(100,2)]`, `U = [(100,100)]`,
`T = [(50,100),(8,100)]`, two combinations, the second with the `T` row
`(8,100)`, while the count of the claim is 1. -/
theorem query_results_not_pinned (hdr : Header) (hi : hdr.i = 0)
    (h1 : hdr.eqVecInt [50, 100] 50 = true) (h2 : hdr.eqIntVec 100 [100, 100] = true)
    (h3 : hdr.eqIntVec 100 [8, 100] = true) (fuel : Nat) :
    (query hdr (fuel + 2) [[2, 50], [50, 100]] [[100, 2]] [[100, 100]]
        [[50, 100], [8, 100]]).1.emitted =
      [⟨[2, 50], [100, 2], [100, 100], [50, 100]⟩, ⟨[2, 50], [100, 2], [100, 100], [8, 100]⟩] ∧
    pinnedCount [[2, 50], [50, 100]] [[100, 2]] [[100, 100]] [[50, 100], [8, 100]] = 1 := by
  refine ⟨?_, by decide⟩
  have hR : hashBuild [[100, 2]] = some [(2, [[100, 2]])] := by decide
  have hU : hashBuild [[100, 100]] = some [(100, [[100, 100]])] := by decide
  have hT : hashBuild [[50, 100], [8, 100]] = some [(100, [[50, 100], [8, 100]])] := by decide
  simp only [query, hR, hU, hT]
  cases fuel <;>
    simp [loop0, loop1, loop2, loop3, finalPred, hi, h1, h2, h3, HashIndex.find,
      HashIndex.subscript, State.visit, State.setR1, State.setU1, State.setT1, State.emit,
      List.lookup]

/-- Witness of the C17 evaluation at the header `sampleHeader`. -/
theorem query_results_not_pinned_witness :
    (query sampleHeader 2 [[2, 50], [50, 100]] [[100, 2]] [[100, 100]]
        [[50, 100], [8, 100]]).1.emitted =
      [⟨[2, 50], [100, 2], [100, 100], [50, 100]⟩, ⟨[2, 50], [100, 2], [100, 100], [8, 100]⟩] ∧
    pinnedCount [[2, 50], [50, 100]] [[100, 2]] [[100, 100]] [[50, 100], [8, 100]] = 1 :=
  query_results_not_pinned sampleHeader rfl (by decide) (by decide) (by decide) 0

/-- C18, the code at a failing input: with `i = 0`, comparisons under which the
tests of lines 127, 149 and 161 pass on the rows below, and `(3,7)==50` false,
the loops emit two combinations for `S2 = [(3,7),(50,100)]`, none for
`S1 = [(999,0)]` and none for `S1 ++ S2`, with `R = [(100,3)]`,
`U = [(100,100)]`, `T = [(50,100),(6,100)]`. -/
theorem query_not_additive_in_S (hdr : Header) (hi : hdr.i = 0)
    (h1 : hdr.eqVecInt [50, 100] 50 = true) (h2 : hdr.eqIntVec 100 [100, 100] = true)
    (h3 : hdr.eqIntVec 100 [6, 100] = true) (h4 : hdr.eqVecInt [3, 7] 50 = false)
    (fuel : Nat) :
    (query hdr (fuel + 2) ([[999, 0]] ++ [[3, 7], [50, 100]]) [[100, 3]] [[100, 100]]
        [[50, 100], [6, 100]]).1.emitted = [] ∧
    (query hdr (fuel + 2) [[999, 0]] [[100, 3]] [[100, 100]]
        [[50, 100], [6, 100]]).1.emitted = [] ∧
    (query hdr (fuel + 2) [[3, 7], [50, 100]] [[100, 3]] [[100, 100]]
        [[50, 100], [6, 100]]).1.emitted =
      [⟨[3, 7], [100, 3], [100, 100], [50, 100]⟩, ⟨[3, 7], [100, 3], [100, 100], [6, 100]⟩] := by
  have hR : hashBuild [[100, 3]] = some [(3, [[100, 3]])] := by decide
  have hU : hashBuild [[100, 100]] = some [(100, [[100, 100]])] := by decide
  have hT : hashBuild [[50, 100], [6, 100]] = some [(100, [[50, 100], [6, 100]])] := by decide
  simp only [query, hR, hU, hT]
  refine ⟨?_, ?_, ?_⟩
  · exact loop0_skip hdr _ [3, 7] rfl h4 _ _ _
  · simp [loop0, hi, State.visit]
  · cases fuel <;>
      simp [loop0, loop1, loop2, loop3, finalPred, hi, h1, h2, h3, HashIndex.find,
        HashIndex.subscript, State.visit, State.setR1, State.setU1, State.setT1, State.emit,
        List.lookup]

/-- Witness of the C18 evaluation at the header `sampleHeader`. -/
theorem query_not_additive_in_S_witness :
    (query sampleHeader 2 ([[999, 0]] ++ [[3, 7], [50, 100]]) [[100, 3]] [[100, 100]]
        [[50, 100], [6, 100]]).1.emitted = [] ∧
    (query sampleHeader 2 [[999, 0]] [[100, 3]] [[100, 100]]
        [[50, 100], [6, 100]]).1.emitted = [] ∧
    (query sampleHeader 2 [[3, 7], [50, 100]] [[100, 3]] [[100, 100]]
        [[50, 100], [6, 100]]).1.emitted =
      [⟨[3, 7], [100, 3], [100, 100], [50, 100]⟩, ⟨[3, 7], [100, 3], [100, 100], [6, 100]⟩] :=
  query_not_additive_in_S sampleHeader rfl (by decide) (by decide) (by decide) (by decide) 0

end Raco
